import Mathlib

/- Verification development for the NRPy symbolic-to-imperative compiler core:
   the indexed expression engine, the expression optimizer / lowerer
   (common-subexpression elimination into three-address statements), the
   kernel registry, the deferred parallel registration controller, and the
   CarpetX make.code.defn writer. -/

namespace NRPy

/-! ## Indexed Expression Engine -/

/-- Scalar symbol generated by the indexed expression engine: a base name
together with the canonical index tuple naming the independent component.
Modelled from the spec: nrpy.indexedexp (the engine behind ixp.declarerank1,
ixp.declarerank2, ixp.declarerank3, ixp.declarerank4 as used by
src/nrpy/equations/general_relativity/psi4.py) is not among the provided
source files; spec section 4.1 says a declared tensor generates one free
symbol per independent index combination under the symmetry specification
and fills dependent slots by symmetry-consistent reference. -/
structure IdxSym where
  base : String
  idx : List Nat
deriving DecidableEq

/-- Canonical (sorted) form of a symmetric index pair: the smaller slot
value first, so both orders of a symmetric pair name the same symbol. -/
def canonPair (i j : Nat) : Nat × Nat :=
  if j < i then (j, i) else (i, j)

/-- Modelled from the spec: ixp.declarerank1 generates one free symbol per
index value; no symmetry applies at rank 1. -/
def declarerank1 (name : String) (i : Nat) : IdxSym :=
  ⟨name, [i]⟩

/-- Modelled from the spec: ixp.declarerank2 with symmetry "sym01" fills the
slot (i, j) and the swapped slot (j, i) with the one symbol named by the
canonical (sorted) index pair; with no symmetry every slot gets its own
symbol. -/
def declarerank2 (name : String) (symmetry : String) (i j : Nat) : IdxSym :=
  if symmetry = "sym01" then ⟨name, [(canonPair i j).1, (canonPair i j).2]⟩
  else ⟨name, [i, j]⟩

/-- Modelled from the spec: ixp.declarerank3 honoring "sym01" or "sym12"
(the latter is the symmetry used for GammaUDD in psi4.py). -/
def declarerank3 (name : String) (symmetry : String) (i j k : Nat) : IdxSym :=
  if symmetry = "sym01" then ⟨name, [(canonPair i j).1, (canonPair i j).2, k]⟩
  else if symmetry = "sym12" then ⟨name, [i, (canonPair j k).1, (canonPair j k).2]⟩
  else ⟨name, [i, j, k]⟩

/-- Modelled from the spec: ixp.declarerank4 honoring "sym01_sym23" (the
composed symmetry used for gammaDDdDD in psi4.py: symmetric in slots (0,1)
and independently in slots (2,3)), as well as the single-pair symmetries. -/
def declarerank4 (name : String) (symmetry : String) (i j k l : Nat) : IdxSym :=
  if symmetry = "sym01_sym23" then
    ⟨name, [(canonPair i j).1, (canonPair i j).2, (canonPair k l).1, (canonPair k l).2]⟩
  else if symmetry = "sym01" then ⟨name, [(canonPair i j).1, (canonPair i j).2, k, l]⟩
  else if symmetry = "sym23" then ⟨name, [i, j, (canonPair k l).1, (canonPair k l).2]⟩
  else ⟨name, [i, j, k, l]⟩

/-- Free symbols generated by a rank-2 declaration of the given dimension:
the set of distinct symbols filling the dimension-by-dimension container. -/
def rank2FreeSymbols (name : String) (symmetry : String) (dim : Nat) : Finset IdxSym :=
  (Finset.univ : Finset (Fin dim × Fin dim)).image
    (fun p => declarerank2 name symmetry p.1.val p.2.val)

/-! ## Kernel Registry -/

/-- Kernel record held by the process-wide kernel registry, carrying the
fields the provided sources read: the registered function's unique name,
the subdirectory (thorn) grouping key consumed by make_code_defn, and the
full generated function text. -/
structure CFunction where
  name : String
  subdirectory : String
  full_function : String
deriving DecidableEq

/-- Error taxonomy of the kernel registry (spec section 7). -/
inductive RegistryError where
  | DuplicateKernelError : String → RegistryError
deriving DecidableEq

/-- Modelled from the spec: nrpy.c_function.register_CFunction (called by all
three example scripts) is not among the provided source files; spec section
4.3 says register(record) fails with DuplicateKernelError if record.name is
already present and otherwise inserts. The registry is the insertion-ordered
list of records. -/
def register_CFunction (reg : List CFunction) (f : CFunction) :
    Except RegistryError (List CFunction) :=
  if reg.any (fun g => g.name == f.name) then
    .error (.DuplicateKernelError f.name)
  else
    .ok (reg ++ [f])

/-- Lexicographic-by-name comparison of kernel records, via the character
list of the name string. -/
def nameLe (a b : CFunction) : Prop :=
  a.name.data ≤ b.name.data

/-- Strict lexicographic-by-name comparison of kernel records. -/
def nameLt (a b : CFunction) : Prop :=
  a.name.data < b.name.data

instance : DecidableRel nameLe :=
  fun a b => inferInstanceAs (Decidable (a.name.data ≤ b.name.data))

instance : IsTotal CFunction nameLe :=
  ⟨fun a b => le_total a.name.data b.name.data⟩

instance : IsTrans CFunction nameLe :=
  ⟨fun _ _ _ h1 h2 => le_trans h1 h2⟩

instance : IsAntisymm CFunction nameLt :=
  ⟨fun _ _ h1 h2 => absurd h2 (not_lt.mpr (le_of_lt h1))⟩

/-- Modelled from the spec: section 4.3 requires all() to return the
registered records in a stable order, lexicographic by name, for
reproducible downstream file generation. -/
def registryAll (reg : List CFunction) : List CFunction :=
  List.insertionSort nameLe reg

/-! ## CarpetX make.code.defn writer (translated from
src/nrpy/infrastructures/CarpetX/make_code_defn.py) -/

/-- Source translation of output_CFunctions_and_construct_make_code_defn
(src/nrpy/infrastructures/CarpetX/make_code_defn.py): filter the values of
cfc.CFunction_dict down to the records whose subdirectory equals the thorn
name, sort them by name, and write the make.code.defn header followed by
one SRCS entry per record, with a line-continuation backslash appended to
every entry except the last. The returned list holds the lines of the
written make.code.defn file (the file itself is written newline-separated;
the per-record .cxx source files written alongside carry each record's
full_function text and are not part of this content). -/
def output_CFunctions_and_construct_make_code_defn
    (CFunction_dict : List (String × CFunction)) (thorn_name : String) :
    List String :=
  let make_code_defn_list_of_CFunctions :=
    (CFunction_dict.map Prod.snd).filter (fun f => f.subdirectory == thorn_name)
  let sorted := List.insertionSort nameLe make_code_defn_list_of_CFunctions
  ["# make.code.defn file for thorn " ++ thorn_name,
   "",
   "# Source files that need to be compiled:",
   "SRCS = \\"]
  ++ sorted.enum.map (fun p =>
      if p.1 < sorted.length - 1 then "       " ++ p.2.name ++ ".cxx \\"
      else "       " ++ p.2.name ++ ".cxx")

/-- Claim-side description of the SRCS entry lines: every name with ".cxx"
appended, each entry except the last followed by a line-continuation
backslash. -/
def srcsEntriesSpec (names : List String) : List String :=
  names.dropLast.map (fun n => "       " ++ n ++ ".cxx \\")
  ++ (names.getLast?.map (fun n => "       " ++ n ++ ".cxx")).toList

/-! ## Expression Optimizer / Lowerer -/

/-- Symbolic expression tree over exact rational literals, numbered input
symbols, and the ring operators. Modelled from the spec: section 3 describes
the immutable expression tree the optimizer consumes (nrpy.c_codegen and the
sympy layer are not among the provided source files); the transcendental
functions and division are outside this exact-arithmetic fragment. -/
inductive Expr where
  | const : ℚ → Expr
  | var : Nat → Expr
  | add : Expr → Expr → Expr
  | sub : Expr → Expr → Expr
  | mul : Expr → Expr → Expr
  | neg : Expr → Expr
deriving DecidableEq

instance : Inhabited Expr := ⟨Expr.const 0⟩

/-- Exact evaluation of a symbolic expression under a numeric assignment to
the input symbols. -/
def Expr.eval (env : Nat → ℚ) : Expr → ℚ
  | .const q => q
  | .var n => env n
  | .add a b => Expr.eval env a + Expr.eval env b
  | .sub a b => Expr.eval env a - Expr.eval env b
  | .mul a b => Expr.eval env a * Expr.eval env b
  | .neg a => - Expr.eval env a

/-- Immediate subexpressions of an expression. -/
def Expr.children : Expr → List Expr
  | .add a b => [a, b]
  | .sub a b => [a, b]
  | .mul a b => [a, b]
  | .neg a => [a]
  | _ => []

/-- Append an expression to the first-occurrence table unless it is already
present (structural identity). -/
def insertNew (acc : List Expr) (e : Expr) : List Expr :=
  if e ∈ acc then acc else acc ++ [e]

/-- Postorder first-occurrence enumeration of all subexpressions of an
expression, continuing a table built so far: subexpressions are appended
after their own subexpressions, each structurally distinct subexpression
exactly once. -/
def collectSubexprs (acc : List Expr) : Expr → List Expr
  | .const q => insertNew acc (.const q)
  | .var n => insertNew acc (.var n)
  | .add a b => insertNew (collectSubexprs (collectSubexprs acc a) b) (.add a b)
  | .sub a b => insertNew (collectSubexprs (collectSubexprs acc a) b) (.sub a b)
  | .mul a b => insertNew (collectSubexprs (collectSubexprs acc a) b) (.mul a b)
  | .neg a => insertNew (collectSubexprs acc a) (.neg a)

/-- First-occurrence table of the whole input batch: temporaries are
numbered in first-occurrence order across the whole batch, not per
expression (spec section 4.2). -/
def buildTable (batch : List (String × Expr)) : List Expr :=
  batch.foldl (fun acc p => collectSubexprs acc p.2) []

/-- Right-hand side of one emitted three-address assignment statement; the
k-th statement of a lowered batch defines temporary number k. -/
inductive Stmt where
  | sconst : ℚ → Stmt
  | svar : Nat → Stmt
  | sadd : Nat → Nat → Stmt
  | ssub : Nat → Nat → Stmt
  | smul : Nat → Nat → Stmt
  | sneg : Nat → Stmt
deriving DecidableEq

/-- Temporary number of a subexpression: its first-occurrence sequence
number in the table. -/
def tempOf (table : List Expr) (e : Expr) : Nat :=
  table.indexOf e

/-- Three-address statement computing one table entry, referring to earlier
temporaries for its subexpressions. -/
def stmtOf (table : List Expr) : Expr → Stmt
  | .const q => .sconst q
  | .var n => .svar n
  | .add a b => .sadd (tempOf table a) (tempOf table b)
  | .sub a b => .ssub (tempOf table a) (tempOf table b)
  | .mul a b => .smul (tempOf table a) (tempOf table b)
  | .neg a => .sneg (tempOf table a)

/-- Temporaries a statement reads. -/
def Stmt.reads : Stmt → List Nat
  | .sadd i j => [i, j]
  | .ssub i j => [i, j]
  | .smul i j => [i, j]
  | .sneg i => [i]
  | _ => []

/-- Lowered form of an input batch: the ordered emitted statement sequence
(statement k defines temporary k) and the output targets, each bound to the
temporary holding its expression's value. -/
structure Lowered where
  stmts : List Stmt
  outputs : List (String × Nat)
deriving DecidableEq

/-- Modelled from the spec: ccg.c_codegen (nrpy.c_codegen, called by
register_CFunction_exact_solution_single_point and register_CFunction_rhs_eval
in src/nrpy/examples/carpet_wavetoy_thorns.py) is not among the provided
source files; spec section 4.2 describes the lowering of an ordered batch of
(output-target, expression) pairs with common-subexpression elimination:
every structurally distinct subexpression receives one temporary, numbered
in first-occurrence order across the whole batch, is computed once, and is
referenced thereafter; each output target is then assigned its expression's
temporary. -/
def c_codegen (batch : List (String × Expr)) : Lowered :=
  let table := buildTable batch
  ⟨table.map (stmtOf table), batch.map (fun p => (p.1, tempOf table p.2))⟩

/-- Value of one statement given the temporaries computed so far. -/
def evalStmt (env : Nat → ℚ) (temps : List ℚ) : Stmt → ℚ
  | .sconst q => q
  | .svar n => env n
  | .sadd i j => temps.getD i 0 + temps.getD j 0
  | .ssub i j => temps.getD i 0 - temps.getD j 0
  | .smul i j => temps.getD i 0 * temps.getD j 0
  | .sneg i => - temps.getD i 0

/-- Execute the emitted statements in order, extending the temporary store
one statement at a time. -/
def runStmts (env : Nat → ℚ) (stmts : List Stmt) : List ℚ :=
  stmts.foldl (fun temps s => temps ++ [evalStmt env temps s]) []

/-- Values of the output targets after executing a lowered batch. -/
def evalLowered (L : Lowered) (env : Nat → ℚ) : List (String × ℚ) :=
  L.outputs.map (fun o => (o.1, (runStmts env L.stmts).getD o.2 0))

/-- Property that every statement reads only temporaries defined by earlier
statements. -/
def DefinedBeforeUse (stmts : List Stmt) : Prop :=
  ∀ k (h : k < stmts.length), ∀ r ∈ (stmts.get ⟨k, h⟩).reads, r < k

/-- Property of a first-occurrence table that every entry's immediate
subexpressions occur at strictly earlier positions of the table. -/
def OrderedClosed (l : List Expr) : Prop :=
  ∀ k (h : k < l.length), ∀ c ∈ (l.get ⟨k, h⟩).children, c ∈ l.take k

/-- Merge indexed results back in original index order: for each index in
order, the result carrying that index. -/
def mergeByIndex {α : Type} (n : Nat) (results : List (Nat × α)) : List α :=
  (List.range n).filterMap
    (fun k => (results.find? (fun p => p.1 == k)).map Prod.snd)

/-- Modelled from the spec: one run's view of the intermediate-identifier
table is the list of (first-occurrence sequence number, subexpression) pairs
in whatever order the hash table happens to iterate (spec section 4.2
determinism requirement). -/
def tableView (batch : List (String × Expr)) : List (Nat × Expr) :=
  (buildTable batch).enum

/-- Modelled from the spec: emission under a hash-order view of the
intermediate-identifier table: the run indexes the identifiers by their
first-occurrence sequence numbers (never by hash-table iteration order) and
emits statements and output bindings from the reindexed table. -/
def emitRun (batch : List (String × Expr)) (view : List (Nat × Expr)) :
    Lowered :=
  let table := mergeByIndex (buildTable batch).length view
  ⟨table.map (stmtOf table), batch.map (fun p => (p.1, tempOf table p.2))⟩

/-! ## Deferred Parallel Registration Controller -/

/-- Registration call record of phase 1: the qualified routine name together
with the concrete argument bindings it was called with (spec section 3). -/
structure CallEntry where
  name : String
  args : List String
deriving DecidableEq

/-- Error taxonomy of the controller (spec section 7): discovering the same
qualified name twice with different argument bindings, and a phase-2 routine
failing, reported with its qualified name, arguments and underlying cause. -/
inductive PcgError where
  | AmbiguousRegistrationError : String → PcgError
  | DispatchFailure : String → List String → String → PcgError
deriving DecidableEq

/-- Modelled from the spec: pcg.register_func_call (nrpy.helpers.parallel_codegen,
called at the top of every kernel-construction routine in the example
scripts) is not among the provided source files; spec section 4.4 says the
call appends the qualified name and argument bindings to the ordered
discovery list, and that discovering the same qualified name twice with
different bindings is the fatal AmbiguousRegistrationError. -/
def register_func_call (name : String) (args : List String)
    (d : List CallEntry) : Except PcgError (List CallEntry) :=
  if d.any (fun e => e.name == name && e.args != args) then
    .error (.AmbiguousRegistrationError name)
  else
    .ok (d ++ [⟨name, args⟩])

/-- Process-wide state of the controller: the discovery-mode flag, the
ordered discovery list, and the kernel registry. -/
structure PcgState where
  registration_phase : Bool
  ParallelCodeGen_dict : List CallEntry
  CFunction_dict : List CFunction
deriving DecidableEq

/-- Discovery-mode flag inspected by every kernel-construction routine
(pcg.pcg_registration_phase in the example scripts). -/
def pcg_registration_phase (s : PcgState) : Bool :=
  s.registration_phase

/-- Modelled from the spec and the uniform caller pattern of
register_CFunction_exact_solution_single_point and
register_CFunction_rhs_eval (src/nrpy/examples/carpet_wavetoy_thorns.py,
lines 89-91) and register_CFunction_diagnostics
(src/nrpy/examples/bbh_TwoPunctures.py, lines 100-102): a kernel-construction
routine first consults the discovery-mode flag; if it is set, the routine
records its qualified name and argument bindings and returns the sentinel
value none ("no result yet") at once, doing no symbolic work; otherwise it
performs the real construction (abstracted here as the routine's construct
function) and registers the resulting records, returning the updated
environment. -/
def invokeRoutine (name : String) (args : List String)
    (construct : List String → List CFunction) (s : PcgState) :
    Except PcgError (PcgState × Option Unit) :=
  if pcg_registration_phase s then
    match register_func_call name args s.ParallelCodeGen_dict with
    | .error e => .error e
    | .ok d => .ok ({ s with ParallelCodeGen_dict := d }, none)
  else
    .ok ({ s with CFunction_dict := s.CFunction_dict ++ construct args },
         some ())

/-- Modelled from the spec: sequential phase-2 dispatch (spec section 4.4)
consumes the discovery list in order, re-invokes each discovered routine
with its recorded arguments (its real construction is the construct
argument), and appends each routine's batch of kernel records to the
registry in discovery order. The returned list is the ordered record list
fed to the registry. -/
def dispatchSeq (construct : CallEntry → List CFunction)
    (entries : List CallEntry) : List CFunction :=
  (entries.map construct).flatten

/-- Modelled from the spec: parallel phase-2 dispatch (spec sections 4.4 and
5): the discovery list is indexed in discovery order and split among workers
(batches is any partition of the indexed entries); each worker computes the
records of its own batch; the controller merges all worker outputs back in
original discovery order, by discovery index, never by completion order. -/
def dispatchPar (construct : CallEntry → List CFunction)
    (entries : List CallEntry) (batches : List (List (Nat × CallEntry))) :
    List CFunction :=
  let results :=
    (batches.map (fun batch => batch.map (fun p => (p.1, construct p.2)))).flatten
  (mergeByIndex entries.length results).flatten

/-- Failure report of one phase-2 routine invocation: a failing routine is
reported with its qualified name, arguments and underlying cause. -/
def failureOf (e : CallEntry) :
    Except String (List CFunction) → Option PcgError
  | .error msg => some (.DispatchFailure e.name e.args msg)
  | .ok _ => none

/-- Modelled from the spec: pcg.do_parallel_codegen (invoked by all three
example scripts) is not among the provided source files; spec section 4.4
failure semantics: every routine of the batch is run to completion and its
result collected; if any routine failed, the whole dispatch fails with the
first failing routine's qualified name, arguments and cause, and no registry
is produced; otherwise the collected batches are merged in discovery
order. -/
def do_parallel_codegen (construct : CallEntry → Except String (List CFunction))
    (entries : List CallEntry) : Except PcgError (List CFunction) :=
  match entries.filterMap (fun e => failureOf e (construct e)) with
  | [] => .ok ((entries.map (fun e => (construct e).toOption.getD [])).flatten)
  | err :: _ => .error err

/-! ## Helper lemmas -/

theorem canonPair_comm (i j : Nat) : canonPair i j = canonPair j i := by
  unfold canonPair
  split <;> split <;> (first | rfl | (congr 1 <;> omega))

theorem declarerank2_symm (name : String) (i j : Nat) :
    declarerank2 name "sym01" i j = declarerank2 name "sym01" j i := by
  simp only [declarerank2, if_pos rfl, ite_true]
  rw [canonPair_comm]

theorem declarerank3_symm (name : String) (i j k : Nat) :
    declarerank3 name "sym12" i j k = declarerank3 name "sym12" i k j := by
  simp only [declarerank3, if_neg (by decide : ¬("sym12" = "sym01")), if_pos rfl, ite_true]
  rw [canonPair_comm]

theorem declarerank4_symm01 (name : String) (i j k l : Nat) :
    declarerank4 name "sym01_sym23" i j k l
      = declarerank4 name "sym01_sym23" j i k l := by
  simp only [declarerank4, if_pos rfl, ite_true]
  rw [canonPair_comm]

theorem declarerank4_symm23 (name : String) (i j k l : Nat) :
    declarerank4 name "sym01_sym23" i j k l
      = declarerank4 name "sym01_sym23" i j l k := by
  simp only [declarerank4, if_pos rfl, ite_true]
  rw [canonPair_comm k l]

theorem declarerank3_symm01 (name : String) (i j k : Nat) :
    declarerank3 name "sym01" i j k = declarerank3 name "sym01" j i k := by
  simp only [declarerank3, if_pos rfl, ite_true]
  rw [canonPair_comm]

theorem declarerank4_symm01_only (name : String) (i j k l : Nat) :
    declarerank4 name "sym01" i j k l = declarerank4 name "sym01" j i k l := by
  simp only [declarerank4, if_neg (by decide : ¬("sym01" = "sym01_sym23")),
    if_pos rfl, ite_true]
  rw [canonPair_comm]

theorem declarerank4_symm23_only (name : String) (i j k l : Nat) :
    declarerank4 name "sym23" i j k l = declarerank4 name "sym23" i j l k := by
  simp only [declarerank4, if_neg (by decide : ¬("sym23" = "sym01_sym23")),
    if_neg (by decide : ¬("sym23" = "sym01")), if_pos rfl, ite_true]
  rw [canonPair_comm k l]

theorem filterMap_eq_map_of_some {β γ : Type} (xs : List β) (f : β → Option γ)
    (g : β → γ) (h : ∀ a ∈ xs, f a = some (g a)) :
    xs.filterMap f = xs.map g := by
  induction xs with
  | nil => rfl
  | cons a t ih =>
      rw [List.filterMap_cons_some (h a (List.mem_cons_self a t)), List.map_cons,
          ih (fun b hb => h b (List.mem_cons_of_mem a hb))]

theorem map_getD_range {β : Type} (l : List β) (d : β) :
    (List.range l.length).map (fun k => l.getD k d) = l := by
  apply List.ext_getElem
  · simp
  · intro i h1 h2
    simp only [List.getElem_map, List.getElem_range, List.getD_eq_getElem?_getD,
      List.getElem?_eq_getElem h2, Option.getD_some]

theorem find?_of_perm_enum {β : Type} (l : List β) (results : List (Nat × β))
    (hperm : results.Perm l.enum) (k : Nat) (hk : k < l.length) (d : β) :
    results.find? (fun p => p.1 == k) = some (k, l.getD k d) := by
  have hgd : l[k]? = some (l.getD k d) := by
    simp [List.getD_eq_getElem?_getD, List.getElem?_eq_getElem hk]
  cases hfind : results.find? (fun p => p.1 == k) with
  | none =>
      have hmem : (k, l.getD k d) ∈ results := by
        rw [hperm.mem_iff]
        exact List.mk_mem_enum_iff_getElem?.mpr hgd
      have hcontr := List.find?_eq_none.mp hfind _ hmem
      simp at hcontr
  | some p =>
      obtain ⟨p1, p2⟩ := p
      have hp1 : p1 = k := by simpa using List.find?_some hfind
      have hpmem : (p1, p2) ∈ results := List.mem_of_find?_eq_some hfind
      rw [hperm.mem_iff, List.mk_mem_enum_iff_getElem?, hp1, hgd] at hpmem
      have hp2 := Option.some.inj hpmem
      rw [hp1, hp2]

theorem mergeByIndex_perm_enum {β : Type} (l : List β) (results : List (Nat × β))
    (d : β) (hperm : results.Perm l.enum) :
    mergeByIndex l.length results = l := by
  unfold mergeByIndex
  rw [filterMap_eq_map_of_some _ _ (fun k => l.getD k d) ?hsome]
  · exact map_getD_range l d
  case hsome =>
    intro k hk
    rw [List.mem_range] at hk
    rw [find?_of_perm_enum l results hperm k hk d]
    rfl

theorem enumFrom_map_pair {β γ : Type} (f : β → γ) :
    ∀ (l : List β) (n : Nat),
      (l.map f).enumFrom n = (l.enumFrom n).map (fun p => (p.1, f p.2))
  | [], _ => rfl
  | a :: t, n => by
      simp only [List.map_cons, List.enumFrom_cons, enumFrom_map_pair f t (n + 1)]

theorem enum_map_pair {β γ : Type} (f : β → γ) (l : List β) :
    (l.map f).enum = l.enum.map (fun p => (p.1, f p.2)) :=
  enumFrom_map_pair f l 0

theorem take_append_small {β : Type} :
    ∀ (l1 l2 : List β) (k : Nat), k ≤ l1.length → (l1 ++ l2).take k = l1.take k
  | _, _, 0, _ => by simp
  | [], _, k + 1, h => by simp at h
  | a :: t, l2, k + 1, h => by
      simp only [List.cons_append, List.take_succ_cons]
      rw [take_append_small t l2 k (by simpa using h)]

theorem insertNew_extends (acc : List Expr) (e : Expr) :
    ∃ t, insertNew acc e = acc ++ t := by
  unfold insertNew
  split
  · exact ⟨[], by simp⟩
  · exact ⟨[e], rfl⟩

theorem collectSubexprs_extends :
    ∀ (e : Expr) (acc : List Expr), ∃ t, collectSubexprs acc e = acc ++ t
  | .const _, acc => insertNew_extends acc _
  | .var _, acc => insertNew_extends acc _
  | .add a b, acc => by
      obtain ⟨t1, h1⟩ := collectSubexprs_extends a acc
      obtain ⟨t2, h2⟩ := collectSubexprs_extends b (collectSubexprs acc a)
      obtain ⟨t3, h3⟩ :=
        insertNew_extends (collectSubexprs (collectSubexprs acc a) b) (.add a b)
      refine ⟨t1 ++ (t2 ++ t3), ?_⟩
      simp only [collectSubexprs]
      rw [h3, h2, h1, List.append_assoc, List.append_assoc]
  | .sub a b, acc => by
      obtain ⟨t1, h1⟩ := collectSubexprs_extends a acc
      obtain ⟨t2, h2⟩ := collectSubexprs_extends b (collectSubexprs acc a)
      obtain ⟨t3, h3⟩ :=
        insertNew_extends (collectSubexprs (collectSubexprs acc a) b) (.sub a b)
      refine ⟨t1 ++ (t2 ++ t3), ?_⟩
      simp only [collectSubexprs]
      rw [h3, h2, h1, List.append_assoc, List.append_assoc]
  | .mul a b, acc => by
      obtain ⟨t1, h1⟩ := collectSubexprs_extends a acc
      obtain ⟨t2, h2⟩ := collectSubexprs_extends b (collectSubexprs acc a)
      obtain ⟨t3, h3⟩ :=
        insertNew_extends (collectSubexprs (collectSubexprs acc a) b) (.mul a b)
      refine ⟨t1 ++ (t2 ++ t3), ?_⟩
      simp only [collectSubexprs]
      rw [h3, h2, h1, List.append_assoc, List.append_assoc]
  | .neg a, acc => by
      obtain ⟨t1, h1⟩ := collectSubexprs_extends a acc
      obtain ⟨t3, h3⟩ := insertNew_extends (collectSubexprs acc a) (.neg a)
      refine ⟨t1 ++ t3, ?_⟩
      simp only [collectSubexprs]
      rw [h3, h1, List.append_assoc]

theorem mem_collectSubexprs_of_mem {x : Expr} (e : Expr) (acc : List Expr)
    (hx : x ∈ acc) : x ∈ collectSubexprs acc e := by
  obtain ⟨t, ht⟩ := collectSubexprs_extends e acc
  rw [ht]
  exact List.mem_append_left t hx

theorem self_mem_insertNew (acc : List Expr) (e : Expr) : e ∈ insertNew acc e := by
  unfold insertNew
  split
  · assumption
  · simp

theorem self_mem_collectSubexprs (e : Expr) (acc : List Expr) :
    e ∈ collectSubexprs acc e := by
  cases e <;> (simp only [collectSubexprs]; exact self_mem_insertNew _ _)

theorem orderedClosed_nil : OrderedClosed [] := by
  intro k h
  simp at h

theorem orderedClosed_append (l : List Expr) (e : Expr)
    (hl : OrderedClosed l) (hch : ∀ c ∈ e.children, c ∈ l) :
    OrderedClosed (l ++ [e]) := by
  intro k hk c hc
  rcases Nat.lt_or_ge k l.length with h | h
  · have hget : (l ++ [e]).get ⟨k, hk⟩ = l.get ⟨k, h⟩ := by
      simp only [List.get_eq_getElem]
      exact List.getElem_append_left h
    rw [hget] at hc
    rw [take_append_small l [e] k (le_of_lt h)]
    exact hl k h c hc
  · have hk2 : k = l.length := by
      have hlen : k < l.length + 1 := by simpa using hk
      omega
    subst hk2
    have hget : (l ++ [e]).get ⟨l.length, hk⟩ = e := by
      simp only [List.get_eq_getElem]
      rw [List.getElem_append_right (le_refl l.length)]
      simp
    rw [hget] at hc
    rw [take_append_small l [e] l.length le_rfl, List.take_length]
    exact hch c hc

theorem orderedClosed_insertNew (acc : List Expr) (e : Expr)
    (h : OrderedClosed acc) (hch : ∀ c ∈ e.children, c ∈ acc) :
    OrderedClosed (insertNew acc e) := by
  unfold insertNew
  split
  · exact h
  · exact orderedClosed_append acc e h hch

theorem orderedClosed_collectSubexprs :
    ∀ (e : Expr) (acc : List Expr), OrderedClosed acc →
      OrderedClosed (collectSubexprs acc e)
  | .const _, acc, h =>
      orderedClosed_insertNew _ _ h (by intro c hc; simp [Expr.children] at hc)
  | .var _, acc, h =>
      orderedClosed_insertNew _ _ h (by intro c hc; simp [Expr.children] at hc)
  | .add a b, acc, h => by
      have h2 := orderedClosed_collectSubexprs b _
        (orderedClosed_collectSubexprs a acc h)
      simp only [collectSubexprs]
      refine orderedClosed_insertNew _ _ h2 ?_
      intro c hc
      simp only [Expr.children, List.mem_cons, List.mem_singleton] at hc
      rcases hc with rfl | hc
      · exact mem_collectSubexprs_of_mem b _ (self_mem_collectSubexprs c acc)
      · simp only [List.not_mem_nil, or_false] at hc
        subst hc
        exact self_mem_collectSubexprs c _
  | .sub a b, acc, h => by
      have h2 := orderedClosed_collectSubexprs b _
        (orderedClosed_collectSubexprs a acc h)
      simp only [collectSubexprs]
      refine orderedClosed_insertNew _ _ h2 ?_
      intro c hc
      simp only [Expr.children, List.mem_cons, List.mem_singleton] at hc
      rcases hc with rfl | hc
      · exact mem_collectSubexprs_of_mem b _ (self_mem_collectSubexprs c acc)
      · simp only [List.not_mem_nil, or_false] at hc
        subst hc
        exact self_mem_collectSubexprs c _
  | .mul a b, acc, h => by
      have h2 := orderedClosed_collectSubexprs b _
        (orderedClosed_collectSubexprs a acc h)
      simp only [collectSubexprs]
      refine orderedClosed_insertNew _ _ h2 ?_
      intro c hc
      simp only [Expr.children, List.mem_cons, List.mem_singleton] at hc
      rcases hc with rfl | hc
      · exact mem_collectSubexprs_of_mem b _ (self_mem_collectSubexprs c acc)
      · simp only [List.not_mem_nil, or_false] at hc
        subst hc
        exact self_mem_collectSubexprs c _
  | .neg a, acc, h => by
      have h1 := orderedClosed_collectSubexprs a acc h
      simp only [collectSubexprs]
      refine orderedClosed_insertNew _ _ h1 ?_
      intro c hc
      simp only [Expr.children, List.mem_singleton] at hc
      subst hc
      exact self_mem_collectSubexprs c acc

theorem orderedClosed_buildTable (batch : List (String × Expr)) :
    OrderedClosed (buildTable batch) := by
  unfold buildTable
  suffices haux : ∀ (bs : List (String × Expr)) (acc : List Expr),
      OrderedClosed acc →
      OrderedClosed (bs.foldl (fun a p => collectSubexprs a p.2) acc) by
    exact haux batch [] orderedClosed_nil
  intro bs
  induction bs with
  | nil => exact fun acc h => h
  | cons p t ih =>
      intro acc h
      exact ih _ (orderedClosed_collectSubexprs p.2 acc h)

theorem mem_buildTable_aux :
    ∀ (bs : List (String × Expr)) (acc : List Expr),
      (∀ x ∈ acc, x ∈ bs.foldl (fun a p => collectSubexprs a p.2) acc)
      ∧ (∀ p ∈ bs, p.2 ∈ bs.foldl (fun a p => collectSubexprs a p.2) acc)
  | [], _ => ⟨fun _ hx => hx, by simp⟩
  | p :: t, acc => by
      obtain ⟨ih1, ih2⟩ := mem_buildTable_aux t (collectSubexprs acc p.2)
      constructor
      · intro x hx
        simpa using ih1 x (mem_collectSubexprs_of_mem p.2 acc hx)
      · intro q hq
        rcases List.mem_cons.mp hq with rfl | hq2
        · simpa using ih1 q.2 (self_mem_collectSubexprs q.2 acc)
        · simpa using ih2 q hq2

theorem indexOf_lt_of_mem_take {c : Expr} :
    ∀ (l : List Expr) (k : Nat), c ∈ l.take k → l.indexOf c < k
  | [], _, h => by simp at h
  | _ :: _, 0, h => by simp at h
  | a :: t, k + 1, h => by
      rw [List.take_succ_cons] at h
      rcases List.mem_cons.mp h with rfl | h2
      · simp [List.indexOf_cons_self]
      · by_cases hca : c = a
        · subst hca
          simp [List.indexOf_cons_self]
        · rw [List.indexOf_cons_ne t (fun hac => hca hac.symm)]
          have := indexOf_lt_of_mem_take t k h2
          omega

theorem getD_temp (env : Nat → ℚ) (table : List Expr) (k : Nat) (c : Expr)
    (hmem : c ∈ table.take k) :
    ((table.take k).map (Expr.eval env)).getD (tempOf table c) 0
      = Expr.eval env c := by
  have hidx : table.indexOf c < k := indexOf_lt_of_mem_take table k hmem
  have hmem2 : c ∈ table := List.mem_of_mem_take hmem
  have hlen : table.indexOf c < table.length := List.indexOf_lt_length.mpr hmem2
  rw [tempOf, List.getD_eq_getElem?_getD, List.getElem?_map,
      List.getElem?_take_of_lt hidx, List.getElem?_eq_getElem hlen,
      List.getElem_indexOf hlen]
  rfl

theorem evalStmt_stmtOf (env : Nat → ℚ) (table : List Expr) (k : Nat) (e : Expr)
    (hch : ∀ c ∈ e.children, c ∈ table.take k) :
    evalStmt env ((table.take k).map (Expr.eval env)) (stmtOf table e)
      = Expr.eval env e := by
  cases e with
  | const q => rfl
  | var n => rfl
  | add a b =>
      have ha := getD_temp env table k a (hch a (by simp [Expr.children]))
      have hb := getD_temp env table k b (hch b (by simp [Expr.children]))
      simp only [stmtOf, evalStmt, Expr.eval, ha, hb]
  | sub a b =>
      have ha := getD_temp env table k a (hch a (by simp [Expr.children]))
      have hb := getD_temp env table k b (hch b (by simp [Expr.children]))
      simp only [stmtOf, evalStmt, Expr.eval, ha, hb]
  | mul a b =>
      have ha := getD_temp env table k a (hch a (by simp [Expr.children]))
      have hb := getD_temp env table k b (hch b (by simp [Expr.children]))
      simp only [stmtOf, evalStmt, Expr.eval, ha, hb]
  | neg a =>
      have ha := getD_temp env table k a (hch a (by simp [Expr.children]))
      simp only [stmtOf, evalStmt, Expr.eval, ha]

theorem reads_stmtOf (table : List Expr) (e : Expr) :
    (stmtOf table e).reads = e.children.map (tempOf table) := by
  cases e <;> rfl

theorem runStmts_eval (env : Nat → ℚ) (table : List Expr)
    (hord : OrderedClosed table) :
    runStmts env (table.map (stmtOf table)) = table.map (Expr.eval env) := by
  suffices haux : ∀ k, k ≤ table.length →
      ((table.take k).map (stmtOf table)).foldl
        (fun temps s => temps ++ [evalStmt env temps s]) []
      = (table.take k).map (Expr.eval env) by
    have h := haux table.length le_rfl
    rw [List.take_length] at h
    exact h
  intro k
  induction k with
  | zero => intro _; simp
  | succ k ih =>
      intro hk1
      have hk : k < table.length := by omega
      have htake : table.take (k + 1) = table.take k ++ [table.get ⟨k, hk⟩] := by
        rw [List.take_succ, List.getElem?_eq_getElem hk]
        rfl
      rw [htake, List.map_append, List.foldl_append, ih (by omega),
          List.map_append]
      simp only [List.map_cons, List.map_nil, List.foldl_cons, List.foldl_nil]
      congr 1
      exact congrArg (fun x => [x])
        (evalStmt_stmtOf env table k (table.get ⟨k, hk⟩) (hord k hk))

/-! ## Claim theorems -/

/-- C1: reading two index tuples related by a declared symmetric slot pair
yields expressions that evaluate identically under every numeric
substitution, for every declared-symmetry branch of the engine at ranks 2,
3 and 4: rank-2 sym01, rank-3 sym01 (used by KDDdD in psi4.py) and sym12
(GammaUDD in psi4.py), and rank-4 sym01, sym23 and the composed sym01_sym23
(gammaDDdDD in psi4.py); a rank-2 tensor of dimension 3 symmetric in its
two slots generates exactly 6 independent free symbols, not 9; and the
entry at slot (0, 1) is the identical symbol as the entry at slot (1, 0). -/
theorem c1_symmetric_tensor_declaration :
    (∀ (v : IdxSym → ℚ) (name : String) (i j : Nat),
        v (declarerank2 name "sym01" i j) = v (declarerank2 name "sym01" j i))
    ∧ (rank2FreeSymbols "K" "sym01" 3).card = 6
    ∧ declarerank2 "K" "sym01" 0 1 = declarerank2 "K" "sym01" 1 0
    ∧ (∀ (v : IdxSym → ℚ) (name : String) (i j k : Nat),
        v (declarerank3 name "sym12" i j k)
          = v (declarerank3 name "sym12" i k j))
    ∧ (∀ (v : IdxSym → ℚ) (name : String) (i j k l : Nat),
        v (declarerank4 name "sym01_sym23" i j k l)
            = v (declarerank4 name "sym01_sym23" j i k l)
        ∧ v (declarerank4 name "sym01_sym23" i j k l)
            = v (declarerank4 name "sym01_sym23" i j l k))
    ∧ (∀ (v : IdxSym → ℚ) (name : String) (i j k : Nat),
        v (declarerank3 name "sym01" i j k)
          = v (declarerank3 name "sym01" j i k))
    ∧ (∀ (v : IdxSym → ℚ) (name : String) (i j k l : Nat),
        v (declarerank4 name "sym01" i j k l)
          = v (declarerank4 name "sym01" j i k l))
    ∧ (∀ (v : IdxSym → ℚ) (name : String) (i j k l : Nat),
        v (declarerank4 name "sym23" i j k l)
          = v (declarerank4 name "sym23" i j l k)) := by
  refine ⟨?_, ?_, ?_, ?_, ?_, ?_, ?_, ?_⟩
  · intro v name i j
    exact congrArg v (declarerank2_symm name i j)
  · decide
  · decide
  · intro v name i j k
    exact congrArg v (declarerank3_symm name i j k)
  · intro v name i j k l
    exact ⟨congrArg v (declarerank4_symm01 name i j k l),
           congrArg v (declarerank4_symm23 name i j k l)⟩
  · intro v name i j k
    exact congrArg v (declarerank3_symm01 name i j k)
  · intro v name i j k l
    exact congrArg v (declarerank4_symm01_only name i j k l)
  · intro v name i j k l
    exact congrArg v (declarerank4_symm23_only name i j k l)

/-- C6: registering a kernel record whose name is already present in the
kernel registry fails with DuplicateKernelError, and registering a record
whose name is not yet present inserts it at the end of the registry. -/
theorem c6_register_duplicate_check (reg : List CFunction) (f : CFunction) :
    ((∃ g ∈ reg, g.name = f.name) →
        register_CFunction reg f = .error (.DuplicateKernelError f.name))
    ∧ ((∀ g ∈ reg, g.name ≠ f.name) →
        register_CFunction reg f = .ok (reg ++ [f])) := by
  constructor
  · rintro ⟨g, hg, hname⟩
    unfold register_CFunction
    rw [if_pos]
    exact List.any_eq_true.mpr ⟨g, hg, by simpa using hname⟩
  · intro h
    unfold register_CFunction
    rw [if_neg]
    intro hany
    obtain ⟨g, hg, hname⟩ := List.any_eq_true.mp hany
    exact h g hg (by simpa using hname)

/-- Witness for C6 at concrete registries: a name collision errors, a fresh
name inserts. -/
theorem c6_register_duplicate_check_witness :
    register_CFunction [⟨"f", "t", ""⟩] ⟨"f", "u", "x"⟩
        = .error (.DuplicateKernelError "f")
    ∧ register_CFunction [⟨"f", "t", ""⟩] ⟨"g", "t", ""⟩
        = .ok [⟨"f", "t", ""⟩, ⟨"g", "t", ""⟩] :=
  ⟨(c6_register_duplicate_check [⟨"f", "t", ""⟩] ⟨"f", "u", "x"⟩).1
      ⟨⟨"f", "t", ""⟩, by simp, rfl⟩,
   (c6_register_duplicate_check [⟨"f", "t", ""⟩] ⟨"g", "t", ""⟩).2
      (by decide)⟩

/-- C5: a kernel-construction routine invoked while the discovery-mode flag
is set appends its qualified name and concrete argument bindings to the end
of the ordered discovery list and returns at once with the sentinel none
("no result yet"); the kernel registry and the flag itself are left
unchanged, and no construction runs. -/
theorem c5_discovery_mode_records_and_returns_sentinel
    (name : String) (args : List String)
    (construct : List String → List CFunction) (s : PcgState)
    (hphase : s.registration_phase = true)
    (hclean : s.ParallelCodeGen_dict.any
        (fun e => e.name == name && e.args != args) = false) :
    invokeRoutine name args construct s
      = .ok ({ s with ParallelCodeGen_dict :=
                 s.ParallelCodeGen_dict ++ [⟨name, args⟩] }, none) := by
  unfold invokeRoutine pcg_registration_phase register_func_call
  rw [hphase, hclean]
  simp

/-- Witness for C5 at a concrete discovery-mode state. -/
theorem c5_discovery_mode_records_and_returns_sentinel_witness :
    invokeRoutine "mod.routine" ["a"] (fun _ => [⟨"k", "t", ""⟩])
        ⟨true, [⟨"other", []⟩], [⟨"r", "t", ""⟩]⟩
      = .ok (⟨true, [⟨"other", []⟩, ⟨"mod.routine", ["a"]⟩],
              [⟨"r", "t", ""⟩]⟩, none) :=
  c5_discovery_mode_records_and_returns_sentinel "mod.routine" ["a"]
    (fun _ => [⟨"k", "t", ""⟩]) ⟨true, [⟨"other", []⟩], [⟨"r", "t", ""⟩]⟩
    rfl (by decide)

/-- C7: discovering the same qualified routine name a second time with
different argument bindings fails with AmbiguousRegistrationError, and every
kernel record produced by phase-2 dispatch comes from an entry of the
phase-1 discovery list (nothing is dispatched that was not discovered). -/
theorem c7_ambiguous_discovery_and_dispatch_from_discovery
    (name : String) (args1 args2 : List String) (d : List CallEntry)
    (construct : CallEntry → List CFunction) (entries : List CallEntry) :
    ((⟨name, args1⟩ : CallEntry) ∈ d → args1 ≠ args2 →
        register_func_call name args2 d
          = .error (.AmbiguousRegistrationError name))
    ∧ (∀ r ∈ dispatchSeq construct entries, ∃ e ∈ entries, r ∈ construct e) := by
  constructor
  · intro hmem hne
    unfold register_func_call
    rw [if_pos]
    exact List.any_eq_true.mpr ⟨⟨name, args1⟩, hmem, by simp [hne]⟩
  · intro r hr
    unfold dispatchSeq at hr
    rw [List.mem_flatten] at hr
    obtain ⟨l, hl, hrl⟩ := hr
    rw [List.mem_map] at hl
    obtain ⟨e, he, rfl⟩ := hl
    exact ⟨e, he, hrl⟩

/-- Witness for C7: a concrete re-discovery with changed arguments errors,
and a concrete dispatched record traces back to its discovery entry. -/
theorem c7_ambiguous_discovery_and_dispatch_from_discovery_witness :
    register_func_call "mod.routine" ["b"] [⟨"mod.routine", ["a"]⟩]
        = .error (.AmbiguousRegistrationError "mod.routine")
    ∧ ∃ e ∈ [(⟨"mod.routine", ["a"]⟩ : CallEntry)],
        (⟨"k", "t", ""⟩ : CFunction) ∈ (fun _ => [(⟨"k", "t", ""⟩ : CFunction)]) e :=
  ⟨(c7_ambiguous_discovery_and_dispatch_from_discovery "mod.routine" ["a"] ["b"]
      [⟨"mod.routine", ["a"]⟩] (fun _ => [⟨"k", "t", ""⟩])
      [⟨"mod.routine", ["a"]⟩]).1 (by simp) (by decide),
   (c7_ambiguous_discovery_and_dispatch_from_discovery "mod.routine" ["a"] ["b"]
      [⟨"mod.routine", ["a"]⟩] (fun _ => [⟨"k", "t", ""⟩])
      [⟨"mod.routine", ["a"]⟩]).2 ⟨"k", "t", ""⟩ (by decide)⟩

/-- C8: if any routine of the batch fails during phase-2 dispatch, the
dispatch as a whole fails with an error carrying a failing routine's
qualified name, arguments and cause (every routine's result having been
collected first), and a successful dispatch certifies that every routine of
the batch succeeded, so no partial, silently-incomplete registry is ever
produced. -/
theorem c8_dispatch_failure_no_partial_registry
    (construct : CallEntry → Except String (List CFunction))
    (entries : List CallEntry) :
    ((∃ e ∈ entries, ∃ msg, construct e = .error msg) →
        ∃ f ∈ entries, ∃ msg, construct f = .error msg ∧
          do_parallel_codegen construct entries
            = .error (.DispatchFailure f.name f.args msg))
    ∧ (∀ out, do_parallel_codegen construct entries = .ok out →
        (∀ e ∈ entries, ∃ recs, construct e = .ok recs)
        ∧ out = (entries.map (fun e => (construct e).toOption.getD [])).flatten) := by
  constructor
  · rintro ⟨e, he, msg, hmsg⟩
    cases hf : entries.filterMap (fun x => failureOf x (construct x)) with
    | nil =>
        have hnone := List.forall_none_of_filterMap_eq_nil hf e he
        rw [hmsg] at hnone
        exact absurd hnone (by simp [failureOf])
    | cons err rest =>
        have herr : err ∈ entries.filterMap (fun x => failureOf x (construct x)) := by
          rw [hf]; exact List.mem_cons_self err rest
        rw [List.mem_filterMap] at herr
        obtain ⟨f, hfe, hsome⟩ := herr
        cases hcf : construct f with
        | error m =>
            rw [hcf] at hsome
            simp only [failureOf, Option.some.injEq] at hsome
            refine ⟨f, hfe, m, hcf, ?_⟩
            unfold do_parallel_codegen
            rw [hf, ← hsome]
        | ok recs =>
            rw [hcf] at hsome
            exact absurd hsome (by simp [failureOf])
  · intro out hout
    unfold do_parallel_codegen at hout
    cases hf : entries.filterMap (fun x => failureOf x (construct x)) with
    | nil =>
        rw [hf] at hout
        refine ⟨?_, by simpa using hout.symm⟩
        intro e he
        have hnone := List.forall_none_of_filterMap_eq_nil hf e he
        cases hcf : construct e with
        | error m => rw [hcf] at hnone; exact absurd hnone (by simp [failureOf])
        | ok recs => exact ⟨recs, rfl⟩
    | cons err rest =>
        rw [hf] at hout
        exact absurd hout (by simp)

/-- Witness for C8: a concrete batch with one failing routine fails as a
whole with that routine's name and arguments, and a concrete all-successful
dispatch certifies every routine succeeded. -/
theorem c8_dispatch_failure_no_partial_registry_witness :
    (∃ f ∈ [(⟨"good", []⟩ : CallEntry), ⟨"bad", ["x"]⟩], ∃ msg,
        (fun e : CallEntry =>
            if e.name == "bad" then (.error "boom" : Except String (List CFunction))
            else .ok [⟨e.name, "t", ""⟩]) f = .error msg ∧
        do_parallel_codegen
            (fun e : CallEntry =>
              if e.name == "bad" then .error "boom"
              else .ok [⟨e.name, "t", ""⟩])
            [⟨"good", []⟩, ⟨"bad", ["x"]⟩]
          = .error (.DispatchFailure f.name f.args msg))
    ∧ ((∀ e ∈ [(⟨"good", []⟩ : CallEntry)], ∃ recs,
          (fun _ : CallEntry =>
              (.ok [(⟨"k", "t", ""⟩ : CFunction)] : Except String (List CFunction))) e
            = .ok recs)
       ∧ [(⟨"k", "t", ""⟩ : CFunction)]
          = (([(⟨"good", []⟩ : CallEntry)]).map
              (fun e => ((fun _ : CallEntry =>
                  (.ok [(⟨"k", "t", ""⟩ : CFunction)] :
                    Except String (List CFunction))) e).toOption.getD [])).flatten) :=
  ⟨(c8_dispatch_failure_no_partial_registry _ _).1
      ⟨⟨"bad", ["x"]⟩, by simp, "boom", rfl⟩,
   (c8_dispatch_failure_no_partial_registry _ _).2 [⟨"k", "t", ""⟩] rfl⟩

/-- C2: for every set of discovered routines, phase 1 followed by sequential
phase-2 dispatch and phase 1 followed by parallel phase-2 dispatch under any
worker partition of the indexed discovery list produce the same ordered
record list — worker batches are merged back in original discovery order,
never completion order — hence kernel registries with identical contents
and identical ordered output from all(). -/
theorem c2_parallel_dispatch_matches_sequential
    (construct : CallEntry → List CFunction) (entries : List CallEntry)
    (batches : List (List (Nat × CallEntry)))
    (hpart : batches.flatten.Perm entries.enum) :
    dispatchPar construct entries batches = dispatchSeq construct entries
    ∧ registryAll (dispatchPar construct entries batches)
        = registryAll (dispatchSeq construct entries) := by
  have hmain : dispatchPar construct entries batches
      = dispatchSeq construct entries := by
    unfold dispatchPar dispatchSeq
    dsimp only
    rw [← List.map_flatten]
    have hperm2 : (batches.flatten.map (fun p => (p.1, construct p.2))).Perm
        (entries.map construct).enum := by
      rw [enum_map_pair]
      exact hpart.map (fun p => (p.1, construct p.2))
    rw [show entries.length = (entries.map construct).length by
          rw [List.length_map],
        mergeByIndex_perm_enum (entries.map construct)
          (batches.flatten.map (fun p => (p.1, construct p.2))) [] hperm2]
  exact ⟨hmain, by rw [hmain]⟩

/-- Witness for C2 at a concrete discovery list split out of order across
two workers. -/
theorem c2_parallel_dispatch_matches_sequential_witness :
    dispatchPar (fun e => [⟨e.name, "t", ""⟩])
        [⟨"r1", []⟩, ⟨"r2", ["a"]⟩]
        [[(1, ⟨"r2", ["a"]⟩)], [(0, ⟨"r1", []⟩)]]
      = dispatchSeq (fun e => [⟨e.name, "t", ""⟩]) [⟨"r1", []⟩, ⟨"r2", ["a"]⟩]
    ∧ registryAll (dispatchPar (fun e => [⟨e.name, "t", ""⟩])
        [⟨"r1", []⟩, ⟨"r2", ["a"]⟩]
        [[(1, ⟨"r2", ["a"]⟩)], [(0, ⟨"r1", []⟩)]])
      = registryAll (dispatchSeq (fun e => [⟨e.name, "t", ""⟩])
        [⟨"r1", []⟩, ⟨"r2", ["a"]⟩]) :=
  c2_parallel_dispatch_matches_sequential (fun e => [⟨e.name, "t", ""⟩])
    [⟨"r1", []⟩, ⟨"r2", ["a"]⟩]
    [[(1, ⟨"r2", ["a"]⟩)], [(0, ⟨"r1", []⟩)]] (by decide)

/-- C3: for a fixed input batch and configuration, the emitted statement
sequence is identical across runs regardless of the iteration order in
which a run's hash table presents the intermediate identifiers: any two
views that enumerate the (first-occurrence sequence number, subexpression)
table in any order emit the same lowered output, which is the canonical
lowering of the batch. -/
theorem c3_lowering_independent_of_hash_order
    (batch : List (String × Expr)) (view1 view2 : List (Nat × Expr))
    (h1 : view1.Perm (tableView batch)) (h2 : view2.Perm (tableView batch)) :
    emitRun batch view1 = emitRun batch view2
    ∧ emitRun batch view1 = c_codegen batch := by
  have key : ∀ v : List (Nat × Expr), v.Perm (tableView batch) →
      emitRun batch v = c_codegen batch := by
    intro v hv
    unfold tableView at hv
    unfold emitRun c_codegen
    rw [mergeByIndex_perm_enum (buildTable batch) v default hv]
  exact ⟨(key view1 h1).trans (key view2 h2).symm, key view1 h1⟩

/-- Witness for C3 at a concrete batch whose table is viewed in two
different hash orders. -/
theorem c3_lowering_independent_of_hash_order_witness :
    emitRun [("out", Expr.add (Expr.var 0) (Expr.var 0))]
        [(1, Expr.add (Expr.var 0) (Expr.var 0)), (0, Expr.var 0)]
      = emitRun [("out", Expr.add (Expr.var 0) (Expr.var 0))]
        [(0, Expr.var 0), (1, Expr.add (Expr.var 0) (Expr.var 0))]
    ∧ emitRun [("out", Expr.add (Expr.var 0) (Expr.var 0))]
        [(1, Expr.add (Expr.var 0) (Expr.var 0)), (0, Expr.var 0)]
      = c_codegen [("out", Expr.add (Expr.var 0) (Expr.var 0))] :=
  c3_lowering_independent_of_hash_order
    [("out", Expr.add (Expr.var 0) (Expr.var 0))]
    [(1, Expr.add (Expr.var 0) (Expr.var 0)), (0, Expr.var 0)]
    [(0, Expr.var 0), (1, Expr.add (Expr.var 0) (Expr.var 0))]
    (by decide) (by decide)

/-- C4: for every input batch and every rational assignment to the free
symbols, evaluating the ordered assignment-statement sequence emitted by
the lowerer in order — every statement reading only temporaries defined by
earlier statements, the output targets then reading their expression's
temporary — reproduces the values of the original symbolic expressions
exactly. -/
theorem c4_emitted_statements_reproduce_expressions
    (batch : List (String × Expr)) (env : Nat → ℚ) :
    evalLowered (c_codegen batch) env
      = batch.map (fun p => (p.1, p.2.eval env))
    ∧ DefinedBeforeUse (c_codegen batch).stmts := by
  constructor
  · unfold evalLowered c_codegen
    dsimp only
    rw [runStmts_eval env (buildTable batch) (orderedClosed_buildTable batch),
        List.map_map]
    apply List.map_congr_left
    intro p hp
    have hmem := (mem_buildTable_aux batch []).2 p hp
    have h := getD_temp env (buildTable batch) (buildTable batch).length p.2
      (by rw [List.take_length]; exact hmem)
    rw [List.take_length] at h
    simp only [Function.comp]
    rw [h]
  · show DefinedBeforeUse
      ((buildTable batch).map (stmtOf (buildTable batch)))
    intro k hk r hr
    have hk2 : k < (buildTable batch).length := by simpa using hk
    have hget : ((buildTable batch).map (stmtOf (buildTable batch))).get ⟨k, hk⟩
        = stmtOf (buildTable batch) ((buildTable batch).get ⟨k, hk2⟩) := by
      simp [List.get_eq_getElem, List.getElem_map]
    rw [hget, reads_stmtOf] at hr
    obtain ⟨c, hc, rfl⟩ := List.mem_map.mp hr
    exact indexOf_lt_of_mem_take (buildTable batch) k
      (orderedClosed_buildTable batch k hk2 c hc)

theorem sorted_nameLt_of_sorted_nodup (l : List CFunction)
    (hs : List.Sorted nameLe l) (hn : (l.map CFunction.name).Nodup) :
    List.Sorted nameLt l := by
  rw [List.Nodup, List.pairwise_map] at hn
  exact (hs.and hn).imp
    (fun h => lt_of_le_of_ne h.1 (fun hd => h.2 (String.ext hd)))

/-- C9: all() on the kernel registry returns the registered records sorted
lexicographically by name; the output is a permutation of the registry
contents, and any two registries holding the same records (in any insertion
order, names being unique) produce the identical ordered output, so
downstream file generation is reproducible. -/
theorem c9_registry_all_stable_lexicographic (reg1 reg2 : List CFunction)
    (hperm : reg1.Perm reg2) (hnames : (reg1.map CFunction.name).Nodup) :
    List.Sorted nameLe (registryAll reg1)
    ∧ (registryAll reg1).Perm reg1
    ∧ registryAll reg1 = registryAll reg2 := by
  have hp1 : (registryAll reg1).Perm reg1 := List.perm_insertionSort nameLe reg1
  have hp2 : (registryAll reg2).Perm reg2 := List.perm_insertionSort nameLe reg2
  refine ⟨List.sorted_insertionSort nameLe reg1, hp1, ?_⟩
  have hp12 : (registryAll reg1).Perm (registryAll reg2) :=
    hp1.trans (hperm.trans hp2.symm)
  have hn1 : ((registryAll reg1).map CFunction.name).Nodup :=
    (hp1.map CFunction.name).nodup_iff.mpr hnames
  have hn2 : ((registryAll reg2).map CFunction.name).Nodup :=
    (hp12.map CFunction.name).nodup_iff.mp hn1
  exact List.eq_of_perm_of_sorted hp12
    (sorted_nameLt_of_sorted_nodup _ (List.sorted_insertionSort nameLe reg1) hn1)
    (sorted_nameLt_of_sorted_nodup _ (List.sorted_insertionSort nameLe reg2) hn2)

/-- Witness for C9: two concrete registries holding the same two records in
opposite insertion orders yield the identical sorted all() output. -/
theorem c9_registry_all_stable_lexicographic_witness :
    List.Sorted nameLe
        (registryAll [⟨"b_fn", "t", ""⟩, ⟨"a_fn", "t", ""⟩])
    ∧ (registryAll [⟨"b_fn", "t", ""⟩, ⟨"a_fn", "t", ""⟩]).Perm
        [⟨"b_fn", "t", ""⟩, ⟨"a_fn", "t", ""⟩]
    ∧ registryAll [⟨"b_fn", "t", ""⟩, ⟨"a_fn", "t", ""⟩]
        = registryAll [⟨"a_fn", "t", ""⟩, ⟨"b_fn", "t", ""⟩] :=
  c9_registry_all_stable_lexicographic
    [⟨"b_fn", "t", ""⟩, ⟨"a_fn", "t", ""⟩]
    [⟨"a_fn", "t", ""⟩, ⟨"b_fn", "t", ""⟩]
    (by decide) (by decide)

theorem enumFrom_if_last {β γ : Type} (f g : β → γ) :
    ∀ (l : List β) (n : Nat),
      (l.enumFrom n).map
          (fun p => if p.1 < n + l.length - 1 then f p.2 else g p.2)
        = l.dropLast.map f ++ (l.getLast?.map g).toList
  | [], _ => rfl
  | [a], n => by
      simp
  | a :: b :: t, n => by
      have ih := enumFrom_if_last f g (b :: t) (n + 1)
      have harith : n + (a :: b :: t).length - 1 = (n + 1) + (b :: t).length - 1 := by
        simp only [List.length_cons]
        omega
      simp only [List.enumFrom_cons, List.map_cons] at ih ⊢
      rw [harith]
      rw [if_pos (by simp only [List.length_cons]; omega)]
      rw [ih]
      simp

/-- C10: for every registry contents and thorn name, the make.code.defn
content written by output_CFunctions_and_construct_make_code_defn is the
fixed header followed by SRCS entries that are exactly the names (each with
".cxx" appended) of the registered records whose subdirectory equals the
thorn name, listed in ascending order of name, every entry except the last
followed by a line-continuation backslash. -/
theorem c10_make_code_defn_lines
    (CFunction_dict : List (String × CFunction)) (thorn_name : String) :
    output_CFunctions_and_construct_make_code_defn CFunction_dict thorn_name
      = ["# make.code.defn file for thorn " ++ thorn_name,
         "",
         "# Source files that need to be compiled:",
         "SRCS = \\"]
        ++ srcsEntriesSpec
            ((List.insertionSort nameLe
                ((CFunction_dict.map Prod.snd).filter
                    (fun f => f.subdirectory == thorn_name))).map CFunction.name)
    ∧ List.Sorted (fun a b : String => a.data ≤ b.data)
        ((List.insertionSort nameLe
            ((CFunction_dict.map Prod.snd).filter
                (fun f => f.subdirectory == thorn_name))).map CFunction.name)
    ∧ ((List.insertionSort nameLe
          ((CFunction_dict.map Prod.snd).filter
              (fun f => f.subdirectory == thorn_name))).map CFunction.name).Perm
        (((CFunction_dict.map Prod.snd).filter
            (fun f => f.subdirectory == thorn_name)).map CFunction.name) := by
  refine ⟨?_, ?_, ?_⟩
  · unfold output_CFunctions_and_construct_make_code_defn
    dsimp only
    congr 1
    have hlem := enumFrom_if_last
      (fun c : CFunction => "       " ++ c.name ++ ".cxx \\")
      (fun c : CFunction => "       " ++ c.name ++ ".cxx")
      (List.insertionSort nameLe
        ((CFunction_dict.map Prod.snd).filter
            (fun f => f.subdirectory == thorn_name))) 0
    simp only [Nat.zero_add] at hlem
    rw [List.enum_eq_enumFrom, hlem]
    unfold srcsEntriesSpec
    simp only [List.getLast?_map, Option.map_map, ← List.map_dropLast,
      List.map_map]
    rfl
  · rw [List.Sorted, List.pairwise_map]
    exact List.sorted_insertionSort nameLe _
  · exact (List.perm_insertionSort nameLe _).map CFunction.name

end NRPy
